import Mathlib

/-!
# go-redis-adapter: the rule codec and the policy store

A shallow embedding of `adapter.go` (package `redisadapter`).

* Go `string` values are Lean `String`s (valid Unicode text) and Go slices are
  Lean `List`s.
* A Go `error` is `Option Err`, `none` being `nil`.
* The Redis connection `a.conn` is explicit state: the lists stored under each
  key, plus the outcomes scheduled for the commands still to be issued, so
  that a command may fail. Every operation returns its result together with
  the adapter after it.
* Three libraries the adapter calls lie outside the repository and are
  described by what the adapter relies on: the Redis list commands `LLEN`,
  `LRANGE`, `RPUSH`, `LREM` (go-redis), `json.Marshal` / `json.Unmarshal`
  (encoding/json) and the casbin model with its loader
  `persist.LoadPolicyArray`.
-/

set_option autoImplicit false

namespace RedisAdapter

/-! ## The rule record -/

/-- CasbinRule is the stored record: a tag and six positional slots. A Go
struct literal `CasbinRule{}` has every field equal to the empty string. -/
structure CasbinRule where
  PType : String := ""
  V0 : String := ""
  V1 : String := ""
  V2 : String := ""
  V3 : String := ""
  V4 : String := ""
  V5 : String := ""
deriving DecidableEq, Repr

/-- The six slots `V0 .. V5` of a record, in slot order. -/
def CasbinRule.slots (line : CasbinRule) : List String :=
  [line.V0, line.V1, line.V2, line.V3, line.V4, line.V5]

/-- The text array built by `loadPolicyLine` before it is handed to
`persist.LoadPolicyArray`: the tag, then every slot that is not the empty
string, by successive `append`s. -/
def loadPolicyLineText (line : CasbinRule) : List String :=
  let text := [line.PType]
  let text := if line.V0 ≠ "" then text ++ [line.V0] else text
  let text := if line.V1 ≠ "" then text ++ [line.V1] else text
  let text := if line.V2 ≠ "" then text ++ [line.V2] else text
  let text := if line.V3 ≠ "" then text ++ [line.V3] else text
  let text := if line.V4 ≠ "" then text ++ [line.V4] else text
  let text := if line.V5 ≠ "" then text ++ [line.V5] else text
  text

/-- The record built by `savePolicyLine`: slot `i` is assigned only when
`len(rule) > i`. -/
def savePolicyLine (ptype : String) (rule : List String) : CasbinRule :=
  let line : CasbinRule := {}
  let line := { line with PType := ptype }
  let line := if h : rule.length > 0 then { line with V0 := rule[0] } else line
  let line := if h : rule.length > 1 then { line with V1 := rule[1] } else line
  let line := if h : rule.length > 2 then { line with V2 := rule[2] } else line
  let line := if h : rule.length > 3 then { line with V3 := rule[3] } else line
  let line := if h : rule.length > 4 then { line with V4 := rule[4] } else line
  let line := if h : rule.length > 5 then { line with V5 := rule[5] } else line
  line

/-! ## Errors and the Redis connection -/

/-- Err is a non-nil Go error value: the sentinel `redis.Nil`, or any other
error identified by its message. -/
inductive Err where
  | redisNil
  | other (msg : String)
deriving DecidableEq, Repr

/-- GoError is a Go value of type error; `none` is `nil`. -/
abbrev GoError := Option Err

/-- Conn is the state behind `a.conn`: the list stored under each key (a key
that does not exist holds the empty list, and Redis deletes a list when it
becomes empty), and the outcomes scheduled for the coming commands, one entry
per command: `some e` makes that command fail with `e` without being applied,
`none` lets the server execute it. Commands issued after the schedule is
exhausted are executed. -/
structure Conn where
  store : String → List String
  faults : List (Option Err)

/-- Takes the scheduled outcome of the next command off the schedule. -/
def Conn.next (c : Conn) : Option Err × Conn :=
  match c.faults with
  | [] => (none, c)
  | f :: fs => (f, { c with faults := fs })

/-- The Redis `LLEN key` command read through `.Uint64()`: the length of the
list, 0 for a key that does not exist. Redis lists hold fewer than `2^32`
elements, so the conversions to `uint64` and then `int64(num)` change
nothing and the length is a `Nat`. -/
def Conn.LLen (c : Conn) (key : String) : Except Err Nat × Conn :=
  match c.next with
  | (some e, c) => (.error e, c)
  | (none, c) => (.ok (c.store key).length, c)

/-- The elements `start .. stop` (both inclusive) of a list as Redis `LRANGE`
selects them: a negative index counts from the end, an out-of-range `stop` is
clipped to the last element. -/
def lrange (l : List String) (start stop : Int) : List String :=
  let n : Int := l.length
  let start := if start < 0 then max (n + start) 0 else start
  let stop := if stop < 0 then n + stop else stop
  let stop := if stop ≥ n then n - 1 else stop
  if start > stop ∨ start ≥ n then [] else (l.drop start.toNat).take (stop - start + 1).toNat

/-- The Redis `LRANGE key start stop` command read through `.Result()`. -/
def Conn.LRange (c : Conn) (key : String) (start stop : Int) : Except Err (List String) × Conn :=
  match c.next with
  | (some e, c) => (.error e, c)
  | (none, c) => (.ok (lrange (c.store key) start stop), c)

/-- The Redis `RPUSH key value...` command read through `.Err()`: the values
are appended at the tail in the order given. The server rejects the command
when no value is supplied. -/
def Conn.RPush (c : Conn) (key : String) (values : List String) : GoError × Conn :=
  match c.next with
  | (some e, c) => (some e, c)
  | (none, c) =>
    if values = [] then
      (some (.other "ERR wrong number of arguments for 'rpush' command"), c)
    else
      (none, { c with store := Function.update c.store key (c.store key ++ values) })

/-- Removes the first `n` elements equal to `v`, scanning from the head. -/
def removeFirstN : Nat → String → List String → List String
  | 0, _, l => l
  | _ + 1, _, [] => []
  | n + 1, v, x :: xs =>
    if x = v then removeFirstN n v xs else x :: removeFirstN (n + 1) v xs

/-- The effect of Redis `LREM key count value` on the list: `count > 0`
removes up to `count` matches from head to tail, `count < 0` from tail to
head, `count = 0` removes every match. -/
def lrem (l : List String) (count : Int) (v : String) : List String :=
  if count > 0 then removeFirstN count.toNat v l
  else if count < 0 then (removeFirstN (-count).toNat v l.reverse).reverse
  else l.filter (fun x => decide (x ≠ v))

/-- The Redis `LREM key count value` command read through `.Err()`. -/
def Conn.LRem (c : Conn) (key : String) (count : Int) (value : String) : GoError × Conn :=
  match c.next with
  | (some e, c) => (some e, c)
  | (none, c) => (none, { c with store := Function.update c.store key (lrem (c.store key) count value) })

/-! ## The adapter -/

/-- Adapter represents the Redis adapter for policy storage. -/
structure Adapter where
  network : String
  address : String
  key : String
  password : String
  conn : Conn

/-- The body of `createTable` is empty. -/
def Adapter.createTable (a : Adapter) : Adapter := a

/-- The body of `dropTable` is empty. -/
def Adapter.dropTable (a : Adapter) : Adapter := a

/-- The list stored under the adapter's key. -/
def Adapter.backing (a : Adapter) : List String := a.conn.store a.key

/-- Json stands for the two `encoding/json` functions the adapter calls on a
`CasbinRule`. `Marshal` of a struct of seven strings cannot fail, so it is a
total function and the `err != nil` branches after it are dead. `Unmarshal`
takes the struct it decodes into: `LoadPolicy` reuses one `line` variable for
every element, and a key absent from the text leaves its field as it was. -/
structure Json where
  Marshal : CasbinRule → String
  Unmarshal : String → CasbinRule → Except String CasbinRule

/-- Unmarshal inverts Marshal: `Marshal` writes all seven fields, so
decoding its output overwrites every field of the target. -/
def Json.Lawful (J : Json) : Prop :=
  ∀ line prev : CasbinRule, J.Unmarshal (J.Marshal line) prev = .ok line

/-! ## The policy model (casbin `model.Model`) -/

/-- Assertion keeps the one field of casbin's `model.Assertion` the adapter
reads and the loader writes. -/
structure Assertion where
  Policy : List (List String)
deriving DecidableEq, Repr

/-- AssertionMap is `map[string]*Assertion`, as an association list whose
keys are distinct; the list order stands for the order in which a `range`
over the map visits it. -/
abbrev AssertionMap := List (String × Assertion)

/-- Model is `map[string]AssertionMap`, as an association list. -/
abbrev Model := List (String × AssertionMap)

/-- The value `m[sec]`; indexing a map with an absent key gives the nil map,
which ranges over nothing. -/
def Model.sec (m : Model) (sec : String) : AssertionMap :=
  (m.lookup sec).getD []

/-- Replaces the value stored under key `k`, keeping the entry's position. -/
def assign {α : Type} (k : String) (v : α) : List (String × α) → List (String × α)
  | [] => []
  | (k', v') :: rest => if k' = k then (k, v) :: rest else (k', v') :: assign k v rest

/-- The rules held under `(sec, ptype)`: `m[sec][ptype].Policy`, empty when
there is no such assertion. -/
def Model.policy (m : Model) (sec ptype : String) : List (List String) :=
  match (m.sec sec).lookup ptype with
  | some ast => ast.Policy
  | none => []

/-- The section a key is routed to, `key[:1]`: its first byte. Slicing the
empty string panics (`none`). A key whose first character is not ASCII gives
a one-byte string that is no valid text and so names no section of a `Model`:
the lookup `m[sec][key]` then yields a nil assertion, which the loader
dereferences, so this case is `none` as well. -/
def sectionOf (key : String) : Option String :=
  match key.data with
  | [] => none
  | c :: _ => if c.val < 128 then some (String.singleton c) else none

/-- The casbin loader `persist.LoadPolicyArray(rule, m)`, in the form that
returns nothing, as `loadPolicyLine` calls it:
`key := rule[0]; sec := key[:1]; m[sec][key].Policy = append(m[sec][key].Policy, rule[1:])`.
The result is `none` when the Go code panics: an empty `rule`, an empty `key`,
or no assertion under `m[sec][key]` (nil pointer dereference). -/
def LoadPolicyArray (rule : List String) (m : Model) : Option Model :=
  match rule with
  | [] => none
  | key :: vals =>
    match sectionOf key with
    | none => none
    | some sec =>
      match m.lookup sec with
      | none => none
      | some am =>
        match am.lookup key with
        | none => none
        | some ast => some (assign sec (assign key { ast with Policy := ast.Policy ++ [vals] } am) m)

/-- The function `loadPolicyLine(line, model)`. -/
def loadPolicyLine (line : CasbinRule) (model : Model) : Option Model :=
  LoadPolicyArray (loadPolicyLineText line) model

/-- The `for _, value := range values` loop of `LoadPolicy`. `none` is a
panic inside the loader; otherwise the error returned and the model as the
loop left it. -/
def loadValues (J : Json) : List String → CasbinRule → Model → Option (GoError × Model)
  | [], _, model => some (none, model)
  | value :: rest, line, model =>
    match J.Unmarshal value line with
    | .error e => some (some (.other e), model)
    | .ok line =>
      match loadPolicyLine line model with
      | none => none
      | some model => loadValues J rest line model

/-- LoadPolicy loads policy from database. -/
def LoadPolicy (J : Json) (a : Adapter) (model : Model) : Option (GoError × Model) × Adapter :=
  match a.conn.LLen a.key with
  | (.error .redisNil, conn) => (some (none, model), { a with conn := conn })
  | (.error e, conn) => (some (some e, model), { a with conn := conn })
  | (.ok num, conn) =>
    match conn.LRange a.key 0 (num : Int) with
    | (.error e, conn) => (some (some e, model), { a with conn := conn })
    | (.ok values, conn) => (loadValues J values {} model, { a with conn := conn })

/-- The loop of `flatten`: `for i := 0; i < rv.Len(); i++`, appending
`rv.Index(i)` to `slice`; `fuel` bounds the number of iterations left. -/
def flattenLoop (v : List String) (i : Nat) (fuel : Nat) (slice : List String) : List String :=
  match fuel with
  | 0 => slice
  | fuel + 1 =>
    if h : i < v.length then flattenLoop v (i + 1) fuel (slice ++ [v[i]]) else slice

/-- The helper `flatten` turns a slice into a slice of `interface{}` values,
element by element. -/
def flatten (v : List String) : List String :=
  flattenLoop v 0 v.length []

/-- The inner loop of `SavePolicy`: `for _, rule := range ast.Policy`. -/
def saveRules (J : Json) (ptype : String) : List (List String) → List String → List String
  | [], texts => texts
  | rule :: rest, texts =>
    let line := savePolicyLine ptype rule
    let text := J.Marshal line
    saveRules J ptype rest (texts ++ [text])

/-- The outer loop of `SavePolicy`: `for ptype, ast := range model[sec]`. -/
def saveSection (J : Json) : AssertionMap → List String → List String
  | [], texts => texts
  | (ptype, ast) :: rest, texts => saveSection J rest (saveRules J ptype ast.Policy texts)

/-- SavePolicy saves policy to database. -/
def SavePolicy (J : Json) (a : Adapter) (model : Model) : GoError × Adapter :=
  let a := a.dropTable
  let a := a.createTable
  let texts : List String := []
  let texts := saveSection J (model.sec "p") texts
  let texts := saveSection J (model.sec "g") texts
  match a.conn.RPush a.key (flatten texts) with
  | (err, conn) => (err, { a with conn := conn })

/-- AddPolicy adds a policy rule to the storage. -/
def AddPolicy (J : Json) (a : Adapter) (_sec : String) (ptype : String) (rule : List String) :
    GoError × Adapter :=
  let line := savePolicyLine ptype rule
  let text := J.Marshal line
  match a.conn.RPush a.key [text] with
  | (err, conn) => (err, { a with conn := conn })

/-- RemovePolicy removes a policy rule from the storage. -/
def RemovePolicy (J : Json) (a : Adapter) (_sec : String) (ptype : String) (rule : List String) :
    GoError × Adapter :=
  let line := savePolicyLine ptype rule
  let text := J.Marshal line
  match a.conn.LRem a.key 1 text with
  | (err, conn) => (err, { a with conn := conn })

/-- RemoveFilteredPolicy removes policy rules that match the filter from the
storage. -/
def RemoveFilteredPolicy (a : Adapter) (_sec : String) (_ptype : String) (_fieldIndex : Int)
    (_fieldValues : List String) : GoError × Adapter :=
  (some (.other "not implemented"), a)

/-- AddPolicies adds policy rules to the storage. -/
def AddPolicies (J : Json) (a : Adapter) (_sec : String) (ptype : String)
    (rules : List (List String)) : GoError × Adapter :=
  let texts := saveRules J ptype rules []
  match a.conn.RPush a.key (flatten texts) with
  | (err, conn) => (err, { a with conn := conn })

/-- RemovePolicies removes policy rules from the storage. -/
def RemovePolicies (J : Json) (a : Adapter) (sec : String) (ptype : String) :
    List (List String) → GoError × Adapter
  | [] => (none, a)
  | rule :: rest =>
    let line := savePolicyLine ptype rule
    let text := J.Marshal line
    match a.conn.LRem a.key 1 text with
    | (some err, conn) => (some err, { a with conn := conn })
    | (none, conn) => RemovePolicies J { a with conn := conn } sec ptype rest

/-! ## A concrete serializer

The operations are stated for any `Json`. `jsonLite` is one concrete instance,
writing a record as the object `json.Marshal` writes for plain text, with the
double quote and the backslash escaped by a backslash. -/

/-- The double quote character. -/
def dquote : Char := Char.ofNat 34

/-- The backslash character. -/
def bslash : Char := Char.ofNat 92

/-- Escapes the double quotes and backslashes of a string body. -/
def escape : List Char → List Char
  | [] => []
  | c :: cs => if c = dquote ∨ c = bslash then bslash :: c :: escape cs else c :: escape cs

/-- Reads a string body up to its closing double quote; the flag tells that
the previous character was an escaping backslash. Returns the body and the
text after the closing quote. -/
def readQuoted : Bool → List Char → List Char → Option (List Char × List Char)
  | _, [], _ => none
  | true, c :: cs, acc => readQuoted false cs (acc ++ [c])
  | false, c :: cs, acc =>
    if c = dquote then some (acc, cs)
    else if c = bslash then readQuoted true cs acc
    else readQuoted false cs (acc ++ [c])

/-- Strips the expected characters off the front of the text. -/
def expect : List Char → List Char → Option (List Char)
  | [], s => some s
  | _ :: _, [] => none
  | p :: ps, c :: cs => if p = c then expect ps cs else none

/-- The text of one member: the quoted name, a colon, the quoted value. -/
def fieldText (name value : String) : List Char :=
  dquote :: name.data ++ [dquote, ':', dquote] ++ escape value.data ++ [dquote]

/-- Reads one member with the given name. -/
def readField (name : String) (s : List Char) : Option (String × List Char) :=
  match expect (dquote :: name.data ++ [dquote, ':', dquote]) s with
  | none => none
  | some s =>
    match readQuoted false s [] with
    | none => none
    | some (v, s) => some (String.mk v, s)

/-- The object text of a record, members in declaration order. -/
def marshalLite (r : CasbinRule) : String :=
  String.mk ([Char.ofNat 123] ++ (fieldText "PType" r.PType ++ ([','] ++ (fieldText "V0" r.V0 ++
    ([','] ++ (fieldText "V1" r.V1 ++ ([','] ++ (fieldText "V2" r.V2 ++
    ([','] ++ (fieldText "V3" r.V3 ++ ([','] ++ (fieldText "V4" r.V4 ++
    ([','] ++ (fieldText "V5" r.V5 ++ [Char.ofNat 125]))))))))))))))

/-- Parses the object text written by `marshalLite`. -/
def parseLite (s : List Char) : Option CasbinRule :=
  (expect [Char.ofNat 123] s).bind fun s =>
  (readField "PType" s).bind fun (pt, s) =>
  (expect [','] s).bind fun s =>
  (readField "V0" s).bind fun (v0, s) =>
  (expect [','] s).bind fun s =>
  (readField "V1" s).bind fun (v1, s) =>
  (expect [','] s).bind fun s =>
  (readField "V2" s).bind fun (v2, s) =>
  (expect [','] s).bind fun s =>
  (readField "V3" s).bind fun (v3, s) =>
  (expect [','] s).bind fun s =>
  (readField "V4" s).bind fun (v4, s) =>
  (expect [','] s).bind fun s =>
  (readField "V5" s).bind fun (v5, s) =>
  if s = [Char.ofNat 125] then
    some { PType := pt, V0 := v0, V1 := v1, V2 := v2, V3 := v3, V4 := v4, V5 := v5 }
  else none

/-- Decodes a text into a record; every member is required, so nothing of
the previous content of the target survives. -/
def unmarshalLite (text : String) (_prev : CasbinRule) : Except String CasbinRule :=
  match parseLite text.data with
  | some r => .ok r
  | none => .error "invalid character"

/-- The concrete serializer. -/
def jsonLite : Json := { Marshal := marshalLite, Unmarshal := unmarshalLite }

/-! ## Vocabulary for the statements -/

/-- The next command issued on the connection is executed by the server. -/
def Conn.Served (c : Conn) : Prop := c.next.1 = none

/-- No failure is scheduled: every command issued is executed. -/
def Conn.Quiet (c : Conn) : Prop := ∀ f ∈ c.faults, f = none

/-- The serialized record of a rule, as every operation of the adapter
computes it: `json.Marshal(savePolicyLine(ptype, rule))`. -/
def Json.record (J : Json) (ptype : String) (rule : List String) : String :=
  J.Marshal (savePolicyLine ptype rule)

/-- The records `SavePolicy` collects for one section: the tags in iteration
order, the rules of one tag in their model order. -/
def Json.sectionRecords (J : Json) (am : AssertionMap) : List String :=
  am.flatMap (fun entry => entry.2.Policy.map (J.record entry.1))

/-- The assertion `m[sec][key]` exists. -/
def Model.has (m : Model) (sec key : String) : Bool :=
  ((m.sec sec).lookup key).isSome

/-- The assertion with its rules dropped. -/
def Assertion.clear (ast : Assertion) : Assertion := { ast with Policy := [] }

/-- The assertions of one section with their rules dropped. -/
def clearSection (am : AssertionMap) : AssertionMap :=
  am.map (fun e => (e.1, e.2.clear))

/-- The model with the same assertions and no rule: what the enforcer hands
to `LoadPolicy` after clearing its policy. -/
def Model.clear (m : Model) : Model :=
  m.map (fun s => (s.1, clearSection s.2))

/-- Loads text arrays one after the other, as the loop of `LoadPolicy` does
once each element is decoded. -/
def loadArrays : List (List String) → Model → Option Model
  | [], m => some m
  | text :: rest, m =>
    match LoadPolicyArray text m with
    | none => none
    | some m => loadArrays rest m

/-- The text array is routed to the assertion `(sec, key)`. -/
def routed (sec key : String) (text : List String) : Bool :=
  decide (text.head? = some key ∧ sectionOf key = some sec)

/-- The text arrays one section of a model is loaded back from when every
rule survives the codec: for each tag in turn, the tag followed by the rule. -/
def sectionTexts (am : AssertionMap) : List (List String) :=
  am.flatMap (fun entry => entry.2.Policy.map (fun rule => entry.1 :: rule))

/-- The assertions of section `sec` can be stored and read back: the tags are
distinct (they are the keys of a Go map), each tag is routed to `sec` by its
first byte, and each rule fits the record: at most six fields, none empty. -/
def AssertionMap.Storable (sec : String) (am : AssertionMap) : Prop :=
  (am.map Prod.fst).Nodup ∧
  ∀ entry ∈ am, sectionOf entry.1 = some sec ∧
    ∀ rule ∈ entry.2.Policy, rule.length ≤ 6 ∧ ∀ f ∈ rule, f ≠ ""

/-- Both sections `SavePolicy` writes, "p" and "g", can be stored and read
back. -/
def Model.Storable (m : Model) : Prop :=
  AssertionMap.Storable "p" (m.sec "p") ∧ AssertionMap.Storable "g" (m.sec "g")

/-- An adapter with the default key whose backing list is `backing` and whose
connection has the given outcomes scheduled. -/
def sampleAdapter (backing : List String) (faults : List (Option Err)) : Adapter :=
  { network := "tcp", address := "127.0.0.1:6379", key := "casbin_rules", password := "",
    conn := { store := fun key => if key = "casbin_rules" then backing else [],
              faults := faults } }

/-- A model with one permission assertion "p" and one role assertion "g",
holding the given rules. -/
def sampleModel (p g : List (List String)) : Model :=
  [("p", [("p", { Policy := p })]), ("g", [("g", { Policy := g })])]

/-- What the specification says `RemovePolicies` does: call `RemovePolicy` on
each rule in order and stop at the first call that returns an error. -/
def removeEach (J : Json) (a : Adapter) (sec : String) (ptype : String) :
    List (List String) → GoError × Adapter
  | [] => (none, a)
  | rule :: rest =>
    match RemovePolicy J a sec ptype rule with
    | (some err, a) => (some err, a)
    | (none, a) => removeEach J a sec ptype rest

/-! ## Codec lemmas -/

theorem savePolicyLine_eq (ptype : String) (rule : List String) :
    savePolicyLine ptype rule =
      { PType := ptype, V0 := rule.getD 0 "", V1 := rule.getD 1 "", V2 := rule.getD 2 "",
        V3 := rule.getD 3 "", V4 := rule.getD 4 "", V5 := rule.getD 5 "" } := by
  rcases rule with _ | ⟨a, _ | ⟨b, _ | ⟨c, _ | ⟨d, _ | ⟨e, _ | ⟨f, t⟩⟩⟩⟩⟩⟩ <;>
    simp [savePolicyLine]

theorem loadPolicyLineText_eq (line : CasbinRule) :
    loadPolicyLineText line = line.PType :: line.slots.filter (fun s => decide (s ≠ "")) := by
  simp only [loadPolicyLineText, CasbinRule.slots, List.filter]
  by_cases h0 : line.V0 = "" <;> by_cases h1 : line.V1 = "" <;>
    by_cases h2 : line.V2 = "" <;> by_cases h3 : line.V3 = "" <;>
    by_cases h4 : line.V4 = "" <;> by_cases h5 : line.V5 = "" <;>
    simp [h0, h1, h2, h3, h4, h5]

theorem slots_filter_savePolicyLine (ptype : String) (rule : List String) :
    (savePolicyLine ptype rule).slots.filter (fun s => decide (s ≠ "")) =
      (rule.take 6).filter (fun s => decide (s ≠ "")) := by
  rw [savePolicyLine_eq]
  rcases rule with _ | ⟨a, _ | ⟨b, _ | ⟨c, _ | ⟨d, _ | ⟨e, _ | ⟨f, t⟩⟩⟩⟩⟩⟩ <;>
    simp [CasbinRule.slots, List.filter]

theorem decode_encode (ptype : String) (rule : List String) :
    loadPolicyLineText (savePolicyLine ptype rule) =
      ptype :: (rule.take 6).filter (fun s => decide (s ≠ "")) := by
  rw [loadPolicyLineText_eq, slots_filter_savePolicyLine]
  simp [savePolicyLine_eq]

theorem decode_encode_of_clean (ptype : String) (rule : List String)
    (hlen : rule.length ≤ 6) (hne : ∀ f ∈ rule, f ≠ "") :
    loadPolicyLineText (savePolicyLine ptype rule) = ptype :: rule := by
  rw [decode_encode, List.take_of_length_le hlen]
  congr 1
  rw [List.filter_eq_self]
  intro f hf
  simpa using hne f hf

/-! ## Connection lemmas -/

theorem Conn.next_of_served {c : Conn} (h : c.Served) :
    c.next = (none, { c with faults := c.faults.tail }) := by
  unfold Conn.Served Conn.next at *
  rcases c with ⟨store, faults⟩
  cases faults with
  | nil => rfl
  | cons f fs => simp only at h; subst h; rfl

theorem Conn.served_of_quiet {c : Conn} (h : c.Quiet) : c.Served := by
  unfold Conn.Served Conn.next
  rcases c with ⟨store, faults⟩
  cases faults with
  | nil => rfl
  | cons f fs => exact h f (List.mem_cons_self _ _)

theorem Conn.quiet_tail {c : Conn} (h : c.Quiet) (store : String → List String) :
    Conn.Quiet { store := store, faults := c.faults.tail } := by
  intro f hf
  exact h f (List.mem_of_mem_tail hf)

theorem Conn.next_store (c : Conn) : c.next.2.store = c.store := by
  unfold Conn.next
  cases c.faults <;> rfl

theorem Conn.next_of_failed {c : Conn} {e : Err} (h : c.next.1 = some e) :
    c.next = (some e, { c with faults := c.faults.tail }) := by
  unfold Conn.next at *
  rcases c with ⟨store, faults⟩
  cases faults with
  | nil => simp at h
  | cons f fs => simp only at h; subst h; rfl

theorem removeFirstN_one (v : String) (l : List String) : removeFirstN 1 v l = l.erase v := by
  induction l with
  | nil => rfl
  | cons x xs ih =>
    by_cases h : x = v
    · simp [removeFirstN, h]
    · have h' : (x == v) = false := by simpa using h
      simp [removeFirstN, h, List.erase_cons, h', ih]

theorem lrem_one (l : List String) (v : String) : lrem l 1 v = l.erase v := by
  simp [lrem, removeFirstN_one]

theorem lrange_all (l : List String) : lrange l 0 (l.length : Int) = l := by
  unfold lrange
  cases l with
  | nil => simp
  | cons x xs =>
    have h1 : ¬ ((xs.length : Int) + 1 < 0) := by omega
    have h2 : ¬ ((0 : Int) > (xs.length : Int) + 1 - 1) := by omega
    have h3 : ¬ ((0 : Int) ≥ (xs.length : Int) + 1) := by omega
    simp [h1, h2, h3]

theorem flattenLoop_eq (v : List String) (fuel i : Nat) (slice : List String)
    (h : i + fuel = v.length) : flattenLoop v i fuel slice = slice ++ v.drop i := by
  induction fuel generalizing i slice with
  | zero =>
    have hi : v.length ≤ i := by omega
    simp [flattenLoop, List.drop_eq_nil_of_le hi]
  | succ n ih =>
    have hi : i < v.length := by omega
    rw [flattenLoop, dif_pos hi, ih (i + 1) _ (by omega), List.append_assoc]
    congr 1
    rw [List.drop_eq_getElem_cons hi]
    rfl

theorem flatten_eq (v : List String) : flatten v = v := by
  unfold flatten
  rw [flattenLoop_eq v v.length 0 [] (by omega)]
  simp

theorem saveRules_eq (J : Json) (ptype : String) (rules : List (List String))
    (texts : List String) :
    saveRules J ptype rules texts = texts ++ rules.map (J.record ptype) := by
  induction rules generalizing texts with
  | nil => simp [saveRules]
  | cons r rest ih => simp [saveRules, ih, Json.record]

theorem saveSection_eq (J : Json) (am : AssertionMap) (texts : List String) :
    saveSection J am texts = texts ++ J.sectionRecords am := by
  induction am generalizing texts with
  | nil => simp [saveSection, Json.sectionRecords]
  | cons entry rest ih =>
    rcases entry with ⟨ptype, ast⟩
    simp [saveSection, ih, saveRules_eq, Json.sectionRecords, List.flatMap_cons]

/-! ## Operation lemmas -/

theorem RPush_served (c : Conn) (key : String) (values : List String) (h : c.Served)
    (hne : values ≠ []) :
    c.RPush key values =
      (none, { store := Function.update c.store key (c.store key ++ values),
               faults := c.faults.tail }) := by
  unfold Conn.RPush
  rw [Conn.next_of_served h]
  simp [hne]

theorem RPush_ok {c : Conn} {key : String} {values : List String}
    (h : (c.RPush key values).1 = none) :
    (c.RPush key values).2.store key = c.store key ++ values := by
  unfold Conn.RPush at *
  rcases hn : c.next with ⟨f, c'⟩
  have hs : c'.store = c.store := by
    have := Conn.next_store c; rw [hn] at this; exact this
  rw [hn] at h
  cases f with
  | some e => simp at h
  | none =>
    by_cases hv : values = []
    · simp [hv] at h
    · simp [hv, hs]

theorem LRem_served (c : Conn) (key : String) (count : Int) (value : String) (h : c.Served) :
    c.LRem key count value =
      (none, { store := Function.update c.store key (lrem (c.store key) count value),
               faults := c.faults.tail }) := by
  unfold Conn.LRem
  rw [Conn.next_of_served h]

theorem RemovePolicy_served (J : Json) (a : Adapter) (sec ptype : String) (rule : List String)
    (h : a.conn.Served) :
    RemovePolicy J a sec ptype rule =
      (none, { a with conn :=
        { store := Function.update a.conn.store a.key ((a.backing).erase (J.record ptype rule)),
          faults := a.conn.faults.tail } }) := by
  unfold RemovePolicy
  simp only [LRem_served _ _ _ _ h, lrem_one, Adapter.backing, Json.record]

theorem AddPolicy_served (J : Json) (a : Adapter) (sec ptype : String) (rule : List String)
    (h : a.conn.Served) :
    AddPolicy J a sec ptype rule =
      (none, { a with conn :=
        { store := Function.update a.conn.store a.key (a.backing ++ [J.record ptype rule]),
          faults := a.conn.faults.tail } }) := by
  unfold AddPolicy
  simp only [RPush_served _ _ _ h (List.cons_ne_nil _ _), Adapter.backing, Json.record]

/-! ## The concrete serializer is lawful -/

theorem readQuoted_escape (s rest acc : List Char) :
    readQuoted false (escape s ++ dquote :: rest) acc = some (acc ++ s, rest) := by
  induction s generalizing acc with
  | nil => simp [escape, readQuoted]
  | cons c cs ih =>
    by_cases h1 : c = dquote
    · subst h1
      have hne : bslash ≠ dquote := by decide
      simp [escape, readQuoted, ih, hne]
    · by_cases h2 : c = bslash
      · subst h2
        simp [escape, readQuoted, ih, h1]
      · simp [escape, readQuoted, ih, h1, h2]

theorem expect_append (pre rest : List Char) : expect pre (pre ++ rest) = some rest := by
  induction pre with
  | nil => cases rest <;> simp [expect]
  | cons p ps ih => simp [expect, ih]

theorem readField_fieldText (name value : String) (rest : List Char) :
    readField name (fieldText name value ++ rest) = some (value, rest) := by
  unfold readField fieldText
  have h : (dquote :: name.data ++ [dquote, ':', dquote] ++ escape value.data ++ [dquote] ++ rest) =
      (dquote :: name.data ++ [dquote, ':', dquote]) ++ (escape value.data ++ dquote :: rest) := by
    simp
  rw [h, expect_append]
  simp [readQuoted_escape]

theorem parseLite_marshalLite (r : CasbinRule) : parseLite (marshalLite r).data = some r := by
  simp only [marshalLite, parseLite, expect_append, readField_fieldText, Option.some_bind,
    if_true]

theorem jsonLite_lawful : jsonLite.Lawful := by
  intro line prev
  simp [jsonLite, unmarshalLite, parseLite_marshalLite]

theorem LoadPolicy_quiet (J : Json) (a : Adapter) (model : Model) (h : a.conn.Quiet) :
    LoadPolicy J a model =
      (loadValues J a.backing {} model,
        { a with conn := { store := a.conn.store, faults := a.conn.faults.tail.tail } }) := by
  have hq1 : Conn.Quiet { store := a.conn.store, faults := a.conn.faults.tail } :=
    Conn.quiet_tail h _
  have h1 := Conn.next_of_served (Conn.served_of_quiet h)
  have h2 := Conn.next_of_served (Conn.served_of_quiet hq1)
  simp only [LoadPolicy, Conn.LLen, Conn.LRange, h1, h2, lrange_all, Adapter.backing]

/-! ## Model lemmas -/

theorem lookup_assign {α : Type} (k k' : String) (v : α) (l : List (String × α)) :
    (assign k v l).lookup k' = if k' = k then (l.lookup k).map (fun _ => v) else l.lookup k' := by
  induction l with
  | nil => simp [assign]
  | cons e rest ih =>
    rcases e with ⟨k0, v0⟩
    by_cases h0 : k0 = k
    · subst h0
      by_cases h1 : k' = k0
      · subst h1
        simp [assign, List.lookup_cons]
      · have : (k' == k0) = false := by simpa using h1
        simp [assign, List.lookup_cons, h1, this]
    · have hk : (k == k0) = false := by simpa using (Ne.symm h0)
      by_cases h1 : k' = k
      · subst h1
        simp [assign, List.lookup_cons, h0, hk, ih]
      · by_cases h2 : k' = k0
        · subst h2
          simp [assign, List.lookup_cons, h0, h1]
        · have : (k' == k0) = false := by simpa using h2
          simp [assign, List.lookup_cons, h0, h1, this, ih]

theorem LoadPolicyArray_spec (key : String) (vals : List String) (m : Model) (sec : String)
    (hsec : sectionOf key = some sec) (hhas : m.has sec key = true) :
    ∃ m', LoadPolicyArray (key :: vals) m = some m' ∧
      (∀ s t, m'.has s t = m.has s t) ∧
      (∀ s t, m'.policy s t =
        if s = sec ∧ t = key then m.policy s t ++ [vals] else m.policy s t) := by
  unfold Model.has Model.sec at hhas
  cases ham : m.lookup sec with
  | none => rw [ham] at hhas; simp at hhas
  | some am =>
    rw [ham] at hhas
    simp only [Option.getD_some] at hhas
    cases hast : am.lookup key with
    | none => rw [hast] at hhas; simp at hhas
    | some ast =>
      refine ⟨assign sec (assign key { Policy := ast.Policy ++ [vals] } am) m,
        by simp only [LoadPolicyArray, hsec, ham, hast], ?_, ?_⟩
      · intro s t
        unfold Model.has Model.sec
        rw [lookup_assign]
        by_cases hs : s = sec
        · subst hs
          simp only [if_true, ham, Option.map_some', Option.getD_some, lookup_assign]
          by_cases ht : t = key
          · subst ht; simp [hast]
          · simp [ht]
        · simp [hs]
      · intro s t
        unfold Model.policy Model.sec
        rw [lookup_assign]
        by_cases hs : s = sec
        · subst hs
          simp only [if_true, ham, Option.map_some', Option.getD_some, lookup_assign, true_and]
          by_cases ht : t = key
          · subst ht; simp [hast]
          · simp [ht]
        · simp [hs]

theorem loadArrays_spec (texts : List (List String)) (m : Model)
    (h : ∀ text ∈ texts, ∃ key vals sec,
      text = key :: vals ∧ sectionOf key = some sec ∧ m.has sec key = true) :
    ∃ m', loadArrays texts m = some m' ∧
      (∀ s t, m'.has s t = m.has s t) ∧
      (∀ s k, m'.policy s k = m.policy s k ++ (texts.filter (routed s k)).map List.tail) := by
  induction texts generalizing m with
  | nil => exact ⟨m, rfl, fun _ _ => rfl, by simp⟩
  | cons text rest ih =>
    obtain ⟨key, vals, sec, htext, hsec, hhas⟩ := h text (List.mem_cons_self _ _)
    obtain ⟨m1, hload, hhas1, hpol1⟩ := LoadPolicyArray_spec key vals m sec hsec hhas
    have hrest : ∀ text ∈ rest, ∃ key vals sec,
        text = key :: vals ∧ sectionOf key = some sec ∧ m1.has sec key = true := by
      intro t ht
      obtain ⟨k, v, s, h1, h2, h3⟩ := h t (List.mem_cons_of_mem _ ht)
      exact ⟨k, v, s, h1, h2, by rw [hhas1]; exact h3⟩
    obtain ⟨m2, hload2, hhas2, hpol2⟩ := ih m1 hrest
    refine ⟨m2, ?_, ?_, ?_⟩
    · rw [htext]
      simp only [loadArrays, hload, hload2]
    · intro s t
      rw [hhas2, hhas1]
    · intro s k
      rw [hpol2, hpol1, htext]
      by_cases hr : s = sec ∧ k = key
      · obtain ⟨hs, hk⟩ := hr
        subst hs hk
        have : routed s k (k :: vals) = true := by simp [routed, hsec]
        simp [List.filter_cons, this]
      · have : routed s k (key :: vals) = false := by
          simp only [routed, List.head?_cons, Option.some.injEq, decide_eq_false_iff_not]
          rintro ⟨h1, h2⟩
          subst h1
          rw [hsec] at h2
          exact hr ⟨(Option.some.inj h2).symm, rfl⟩
        simp [List.filter_cons, this, hr]

theorem loadValues_marshal (J : Json) (hJ : J.Lawful) (lines : List CasbinRule)
    (prev : CasbinRule) (m : Model) :
    loadValues J (lines.map J.Marshal) prev m =
      (loadArrays (lines.map loadPolicyLineText) m).map (fun m' => (none, m')) := by
  induction lines generalizing prev m with
  | nil => rfl
  | cons line rest ih =>
    simp only [List.map_cons, loadValues, hJ line prev, loadPolicyLine, loadArrays]
    cases LoadPolicyArray (loadPolicyLineText line) m with
    | none => rfl
    | some m1 => exact ih line m1

/-! ## Saving and loading -/

theorem SavePolicy_ok (J : Json) (a : Adapter) (M : Model) (h : (SavePolicy J a M).1 = none) :
    (SavePolicy J a M).2.backing =
      a.backing ++ (J.sectionRecords (M.sec "p") ++ J.sectionRecords (M.sec "g")) := by
  simp only [SavePolicy, Adapter.dropTable, Adapter.createTable, saveSection_eq, flatten_eq,
    List.nil_append, Adapter.backing] at h ⊢
  exact RPush_ok h

theorem SavePolicy_quiet (J : Json) (a : Adapter) (M : Model) (h : a.conn.Quiet) :
    (SavePolicy J a M).2.backing =
      a.backing ++ (J.sectionRecords (M.sec "p") ++ J.sectionRecords (M.sec "g")) ∧
    (SavePolicy J a M).2.conn.Quiet ∧
    (J.sectionRecords (M.sec "p") ++ J.sectionRecords (M.sec "g") ≠ [] →
      (SavePolicy J a M).1 = none) := by
  simp only [SavePolicy, Adapter.dropTable, Adapter.createTable, saveSection_eq, flatten_eq,
    List.nil_append, Adapter.backing]
  by_cases hrec : J.sectionRecords (M.sec "p") ++ J.sectionRecords (M.sec "g") = []
  · unfold Conn.RPush
    rw [Conn.next_of_served (Conn.served_of_quiet h), hrec]
    exact ⟨by simp, Conn.quiet_tail h _, fun hne => absurd rfl hne⟩
  · rw [RPush_served _ _ _ (Conn.served_of_quiet h) hrec]
    exact ⟨by simp, Conn.quiet_tail h _, fun _ => rfl⟩

theorem lookup_eq_none_of_not_mem {α : Type} (k : String) (l : List (String × α))
    (h : k ∉ l.map Prod.fst) : l.lookup k = none := by
  induction l with
  | nil => rfl
  | cons e rest ih =>
    rcases e with ⟨k0, v0⟩
    simp only [List.map_cons, List.mem_cons, not_or] at h
    have : (k == k0) = false := by simpa using h.1
    simp [List.lookup_cons, this, ih h.2]

theorem mem_of_lookup {α : Type} (k : String) (v : α) (l : List (String × α))
    (h : l.lookup k = some v) : (k, v) ∈ l := by
  induction l with
  | nil => cases h
  | cons e rest ih =>
    rcases e with ⟨k0, v0⟩
    by_cases hk : k = k0
    · subst hk
      simp only [List.lookup_cons, beq_self_eq_true, Option.some.injEq] at h
      subst h
      exact List.mem_cons_self _ _
    · have hb : (k == k0) = false := by simpa using hk
      simp only [List.lookup_cons, hb] at h
      exact List.mem_cons_of_mem _ (ih h)

theorem SavePolicy_quiet_empty (J : Json) (a : Adapter) (M : Model) (h : a.conn.Quiet)
    (hrec : J.sectionRecords (M.sec "p") ++ J.sectionRecords (M.sec "g") = []) :
    (SavePolicy J a M).1 =
      some (Err.other "ERR wrong number of arguments for 'rpush' command") := by
  simp only [SavePolicy, Adapter.dropTable, Adapter.createTable, saveSection_eq, flatten_eq,
    List.nil_append]
  unfold Conn.RPush
  rw [Conn.next_of_served (Conn.served_of_quiet h), hrec]
  simp

theorem lookup_of_mem_nodup {α : Type} (e : String × α) (l : List (String × α))
    (hnodup : (l.map Prod.fst).Nodup) (h : e ∈ l) : l.lookup e.1 = some e.2 := by
  induction l with
  | nil => cases h
  | cons e0 rest ih =>
    rcases e0 with ⟨k0, v0⟩
    simp only [List.map_cons, List.nodup_cons] at hnodup
    rcases List.mem_cons.mp h with h1 | h1
    · subst h1
      simp [List.lookup_cons]
    · have hk : e.1 ≠ k0 := by
        intro heq
        exact hnodup.1 (heq ▸ List.mem_map_of_mem Prod.fst h1)
      have hb : (e.1 == k0) = false := by simpa using hk
      simp [List.lookup_cons, hb, ih hnodup.2 h1]

theorem sectionRecords_nil_of_policy_nil (J : Json) (M : Model) (sec : String)
    (hnodup : ((M.sec sec).map Prod.fst).Nodup) (h : ∀ tag, M.policy sec tag = []) :
    J.sectionRecords (M.sec sec) = [] := by
  unfold Json.sectionRecords
  rw [List.flatMap_eq_nil_iff]
  intro entry hentry
  have hl := lookup_of_mem_nodup entry _ hnodup hentry
  have hp := h entry.1
  unfold Model.policy at hp
  rw [hl] at hp
  have hp' : entry.2.Policy = [] := hp
  simp [hp']

theorem lookup_isSome_of_mem {α : Type} (e : String × α) (l : List (String × α))
    (h : e ∈ l) : (l.lookup e.1).isSome = true := by
  induction l with
  | nil => cases h
  | cons e0 rest ih =>
    rcases e0 with ⟨k0, v0⟩
    by_cases hk : e.1 = k0
    · simp [List.lookup_cons, hk]
    · have hb : (e.1 == k0) = false := by simpa using hk
      have hmem : e ∈ rest := by
        rcases List.mem_cons.mp h with h1 | h1
        · exact absurd (by rw [h1]) hk
        · exact h1
      simp [List.lookup_cons, hb, ih hmem]

theorem lookup_map_snd {α β : Type} (f : α → β) (k : String) (l : List (String × α)) :
    (l.map (fun e => (e.1, f e.2))).lookup k = (l.lookup k).map f := by
  induction l with
  | nil => rfl
  | cons e rest ih =>
    rcases e with ⟨k0, v0⟩
    by_cases hk : k = k0
    · simp [List.lookup_cons, hk]
    · have hb : (k == k0) = false := by simpa using hk
      simp [List.lookup_cons, hb, ih]

theorem clear_sec (m : Model) (s : String) : m.clear.sec s = clearSection (m.sec s) := by
  unfold Model.sec Model.clear
  rw [lookup_map_snd clearSection]
  cases m.lookup s <;> rfl

theorem clear_has (m : Model) (s t : String) : m.clear.has s t = m.has s t := by
  unfold Model.has
  rw [clear_sec, clearSection, lookup_map_snd Assertion.clear]
  cases (m.sec s).lookup t <;> rfl

theorem clear_policy (m : Model) (s t : String) : m.clear.policy s t = [] := by
  unfold Model.policy
  rw [clear_sec, clearSection, lookup_map_snd Assertion.clear]
  cases (m.sec s).lookup t <;> rfl

theorem filter_sectionTexts (sec : String) (am : AssertionMap)
    (hnodup : (am.map Prod.fst).Nodup) (hsec : ∀ entry ∈ am, sectionOf entry.1 = some sec)
    (s k : String) :
    ((sectionTexts am).filter (routed s k)).map List.tail =
      if s = sec then (match am.lookup k with
        | some ast => ast.Policy
        | none => []) else [] := by
  induction am with
  | nil => simp [sectionTexts]
  | cons e rest ih =>
    rcases e with ⟨t, ast⟩
    simp only [List.map_cons, List.nodup_cons] at hnodup
    have ih' := ih hnodup.2 (fun entry h => hsec entry (List.mem_cons_of_mem _ h))
    have ht : sectionOf t = some sec := hsec (t, ast) (List.mem_cons_self _ _)
    have hsplit : sectionTexts ((t, ast) :: rest) =
        ast.Policy.map (fun rule => t :: rule) ++ sectionTexts rest := by
      simp [sectionTexts, List.flatMap_cons]
    rw [hsplit, List.filter_append, List.map_append, ih']
    by_cases hk : t = k ∧ s = sec
    · obtain ⟨h1, h2⟩ := hk
      subst h1 h2
      have hall : (ast.Policy.map (fun rule => t :: rule)).filter (routed s t) =
          ast.Policy.map (fun rule => t :: rule) := by
        rw [List.filter_eq_self]
        intro x hx
        obtain ⟨r, _, rfl⟩ := List.mem_map.mp hx
        simp [routed, ht]
      rw [hall, lookup_eq_none_of_not_mem t rest hnodup.1]
      simp [List.lookup_cons, List.map_map, Function.comp_def]
    · have hnone : (ast.Policy.map (fun rule => t :: rule)).filter (routed s k) = [] := by
        rw [List.filter_eq_nil_iff]
        intro x hx
        obtain ⟨r, _, rfl⟩ := List.mem_map.mp hx
        simp only [routed, List.head?_cons, Option.some.injEq, decide_eq_true_eq, not_and]
        intro h1 h2
        subst h1
        rw [ht] at h2
        exact hk ⟨rfl, (Option.some.inj h2).symm⟩
      rw [hnone]
      by_cases hs : s = sec
      · have hne : k ≠ t := fun h => hk ⟨h.symm, hs⟩
        have hb : (k == t) = false := by simpa using hne
        simp [hs, List.lookup_cons, hb]
      · simp [hs]

theorem map_decode_sectionLines (sec : String) (am : AssertionMap)
    (h : AssertionMap.Storable sec am) :
    (am.flatMap (fun entry => entry.2.Policy.map (savePolicyLine entry.1))).map
      loadPolicyLineText = sectionTexts am := by
  unfold sectionTexts
  obtain ⟨-, hall⟩ := h
  induction am with
  | nil => rfl
  | cons e rest ih =>
    have ih' := ih (fun entry hmem => hall entry (List.mem_cons_of_mem _ hmem))
    simp only [List.flatMap_cons, List.map_append, ih', List.map_map]
    congr 1
    apply List.map_congr_left
    intro rule hrule
    have hc := (hall e (List.mem_cons_self _ _)).2 rule hrule
    simp [decode_encode_of_clean e.1 rule hc.1 hc.2]

theorem sectionRecords_eq_map (J : Json) (am : AssertionMap) :
    J.sectionRecords am =
      (am.flatMap (fun entry => entry.2.Policy.map (savePolicyLine entry.1))).map J.Marshal := by
  unfold Json.sectionRecords
  induction am with
  | nil => rfl
  | cons e rest ih =>
    simp only [List.flatMap_cons, List.map_append, ih, List.map_map]
    rfl

/-! ## Removal lemmas -/

theorem RemovePolicy_failed (J : Json) (a : Adapter) (sec ptype : String) (rule : List String)
    (e : Err) (h : (RemovePolicy J a sec ptype rule).1 = some e) :
    (RemovePolicy J a sec ptype rule).2.backing = a.backing := by
  unfold RemovePolicy Conn.LRem at *
  rcases hn : a.conn.next with ⟨f, c⟩
  have hs : c.store = a.conn.store := by
    have := Conn.next_store a.conn; rw [hn] at this; exact this
  rw [hn] at h
  cases f with
  | some e' => simp [Adapter.backing, hs]
  | none => simp at h

theorem RemovePolicy_ok (J : Json) (a : Adapter) (sec ptype : String) (rule : List String)
    (h : (RemovePolicy J a sec ptype rule).1 = none) :
    (RemovePolicy J a sec ptype rule).2.backing = a.backing.erase (J.record ptype rule) := by
  have hserved : a.conn.Served := by
    unfold RemovePolicy Conn.LRem at h
    unfold Conn.Served
    rcases hn : a.conn.next with ⟨f, c⟩
    rw [hn] at h
    cases f with
    | some e => simp at h
    | none => rfl
  rw [RemovePolicy_served J a sec ptype rule hserved]
  simp [Adapter.backing]

theorem RemovePolicies_eq_removeEach (J : Json) (a : Adapter) (sec ptype : String)
    (rules : List (List String)) :
    RemovePolicies J a sec ptype rules = removeEach J a sec ptype rules := by
  induction rules generalizing a with
  | nil => rfl
  | cons rule rest ih =>
    simp only [RemovePolicies, removeEach, RemovePolicy]
    rcases hn : a.conn.LRem a.key 1 (J.Marshal (savePolicyLine ptype rule)) with ⟨err, conn⟩
    cases err with
    | some e => rfl
    | none => exact ih _

theorem removeEach_append (J : Json) (a : Adapter) (sec ptype : String)
    (done rest : List (List String)) :
    removeEach J a sec ptype (done ++ rest) =
      match removeEach J a sec ptype done with
      | (some err, a1) => (some err, a1)
      | (none, a1) => removeEach J a1 sec ptype rest := by
  induction done generalizing a with
  | nil => rfl
  | cons rule more ih =>
    simp only [List.cons_append, removeEach]
    rcases hr : RemovePolicy J a sec ptype rule with ⟨err, a1⟩
    cases err with
    | some e => rfl
    | none => exact ih a1

theorem removeEach_backing (J : Json) (a : Adapter) (sec ptype : String)
    (rules : List (List String)) (h : (removeEach J a sec ptype rules).1 = none) :
    (removeEach J a sec ptype rules).2.backing =
      rules.foldl (fun l r => l.erase (J.record ptype r)) a.backing := by
  induction rules generalizing a with
  | nil => rfl
  | cons rule rest ih =>
    simp only [removeEach, List.foldl_cons] at h ⊢
    rcases hr : RemovePolicy J a sec ptype rule with ⟨err, a1⟩
    rw [hr] at h
    cases err with
    | some e => simp at h
    | none =>
      have hb := RemovePolicy_ok J a sec ptype rule (by rw [hr])
      rw [hr] at hb
      simp only at hb h ⊢
      rw [ih a1 h, hb]

theorem removeEach_quiet (J : Json) (a : Adapter) (sec ptype : String)
    (rules : List (List String)) (h : a.conn.Quiet) :
    (removeEach J a sec ptype rules).1 = none := by
  induction rules generalizing a with
  | nil => rfl
  | cons rule rest ih =>
    simp only [removeEach]
    rw [RemovePolicy_served J a sec ptype rule (Conn.served_of_quiet h)]
    exact ih _ (Conn.quiet_tail h _)

/-! ## Claims about the codec -/

/-- C1: for every tag and every rule tuple of length 1 to 6 none of whose
fields is the empty string, the text array `loadPolicyLine` builds from the
record `savePolicyLine(tag, tuple)` is the tag followed by the tuple's fields
in their original order. -/
theorem codec_round_trip (tag : String) (tuple : List String)
    (hlo : 1 ≤ tuple.length) (hhi : tuple.length ≤ 6) (hne : ∀ f ∈ tuple, f ≠ "") :
    loadPolicyLineText (savePolicyLine tag tuple) = tag :: tuple := by
  have _ := hlo
  exact decode_encode_of_clean tag tuple hhi hne

theorem codec_round_trip_witness :
    loadPolicyLineText (savePolicyLine "p" ["alice", "data1", "read"]) =
      ["p", "alice", "data1", "read"] :=
  codec_round_trip "p" ["alice", "data1", "read"] (by decide) (by decide) (by decide)

/-- C2: `savePolicyLine(tag, tuple)` is total; its PType is the tag; slot
`Vi`, for `i` in 0..5, is `tuple[i]` when `i < len(tuple)` and the empty
string otherwise; fields at index 6 and beyond have no effect, so the record
of a tuple is the record of its first six fields; and the record of
`("p", ["alice","data1","read"])` is the one the specification lists. -/
theorem encode_positional_padded_truncating (tag : String) (tuple : List String) :
    (savePolicyLine tag tuple).PType = tag ∧
    (∀ i : Fin 6, (savePolicyLine tag tuple).slots[i.val]? =
      some (if h : i.val < tuple.length then tuple[i.val] else "")) ∧
    savePolicyLine tag tuple = savePolicyLine tag (tuple.take 6) ∧
    savePolicyLine "p" ["alice", "data1", "read"] =
      { PType := "p", V0 := "alice", V1 := "data1", V2 := "read", V3 := "", V4 := "", V5 := "" } := by
  refine ⟨by simp [savePolicyLine_eq], ?_, ?_, by simp [savePolicyLine_eq]⟩
  · intro i
    rw [savePolicyLine_eq]
    have hget : ∀ n, tuple[n]?.getD "" = if h : n < tuple.length then tuple[n] else "" := by
      intro n
      by_cases h : n < tuple.length
      · simp [h, List.getElem?_eq_getElem]
      · simp [h, List.getElem?_eq_none (Nat.le_of_not_lt h)]
    fin_cases i <;> simp [CasbinRule.slots, hget]
  · rw [savePolicyLine_eq, savePolicyLine_eq]
    rcases tuple with _ | ⟨a, _ | ⟨b, _ | ⟨c, _ | ⟨d, _ | ⟨e, _ | ⟨f, t⟩⟩⟩⟩⟩⟩ <;> simp

/-- C10: decoding emits the tag followed by exactly the non-empty slots in
slot order; hence for every tag and every tuple containing an empty-string
field, decode(encode(tag, tuple)) differs from (tag, tuple): it is the tag
followed by the non-empty fields among the first six, so when the tuple fits
the record and has one empty field, that field is gone and the fields after
it have moved one position to the left. -/
theorem empty_fields_do_not_round_trip (tag : String) (tuple : List String)
    (hempty : "" ∈ tuple) :
    (∀ line : CasbinRule,
      loadPolicyLineText line = line.PType :: line.slots.filter (fun s => decide (s ≠ ""))) ∧
    loadPolicyLineText (savePolicyLine tag tuple) ≠ tag :: tuple ∧
    loadPolicyLineText (savePolicyLine tag tuple) =
      tag :: (tuple.take 6).filter (fun s => decide (s ≠ "")) ∧
    (∀ before after : List String, tuple = before ++ "" :: after → tuple.length ≤ 6 →
      (∀ f ∈ before ++ after, f ≠ "") →
      loadPolicyLineText (savePolicyLine tag tuple) = tag :: (before ++ after)) := by
  refine ⟨loadPolicyLineText_eq, ?_, decode_encode tag tuple, ?_⟩
  · rw [decode_encode]
    intro h
    have htl := List.tail_eq_of_cons_eq h
    have hmem : "" ∈ (tuple.take 6).filter (fun s => decide (s ≠ "")) := by
      rw [htl]; exact hempty
    simp at hmem
  · intro before after htuple hlen hne
    rw [decode_encode, List.take_of_length_le hlen, htuple]
    congr 1
    have hb : before.filter (fun s => decide (s ≠ "")) = before := by
      rw [List.filter_eq_self]; intro f hf; simpa using hne f (List.mem_append_left _ hf)
    have ha : after.filter (fun s => decide (s ≠ "")) = after := by
      rw [List.filter_eq_self]; intro f hf; simpa using hne f (List.mem_append_right _ hf)
    rw [List.filter_append, List.filter_cons, hb, ha]
    simp

theorem empty_fields_do_not_round_trip_witness :
    loadPolicyLineText (savePolicyLine "p" ["alice", "", "read"]) ≠ ["p", "alice", "", "read"] ∧
    loadPolicyLineText (savePolicyLine "p" ["alice", "", "read"]) = ["p", "alice", "read"] :=
  have h := empty_fields_do_not_round_trip "p" ["alice", "", "read"] (by decide)
  ⟨h.2.1, (h.2.2.2 ["alice"] ["read"] rfl (by decide) (by decide))⟩

/-! ## Claims about the store operations -/

/-- C6: when the backend executes the command, `RemovePolicy(section, tag,
rule)` returns no error and deletes the first element of the backing list
equal to the serialized `savePolicyLine(tag, rule)`, leaving every other
element and the relative order unchanged; with no matching element the list
is unchanged; a record present `k + 1` times is present `k` times afterwards;
and after adding a rule twice and removing it once the list holds one more
occurrence of its record than before (exactly one when it held none). -/
theorem remove_policy_removes_first_match (J : Json) (a : Adapter) (sec tag : String)
    (rule : List String) (hserved : a.conn.Served) :
    (RemovePolicy J a sec tag rule).1 = none ∧
    (RemovePolicy J a sec tag rule).2.backing = a.backing.erase (J.record tag rule) ∧
    (J.record tag rule ∈ a.backing → ∃ l₁ l₂, a.backing = l₁ ++ J.record tag rule :: l₂ ∧
      J.record tag rule ∉ l₁ ∧ (RemovePolicy J a sec tag rule).2.backing = l₁ ++ l₂) ∧
    (J.record tag rule ∉ a.backing → (RemovePolicy J a sec tag rule).2.backing = a.backing) ∧
    (∀ k, a.backing.count (J.record tag rule) = k + 1 →
      (RemovePolicy J a sec tag rule).2.backing.count (J.record tag rule) = k) ∧
    (∀ y, y ≠ J.record tag rule →
      (RemovePolicy J a sec tag rule).2.backing.count y = a.backing.count y) ∧
    ((RemovePolicy J a sec tag rule).2.backing).Sublist a.backing ∧
    (a.conn.Quiet →
      (RemovePolicy J (AddPolicy J (AddPolicy J a sec tag rule).2 sec tag rule).2
        sec tag rule).2.backing.count (J.record tag rule) =
        a.backing.count (J.record tag rule) + 1) := by
  have hb : (RemovePolicy J a sec tag rule).2.backing = a.backing.erase (J.record tag rule) := by
    rw [RemovePolicy_served J a sec tag rule hserved]
    simp [Adapter.backing]
  refine ⟨by rw [RemovePolicy_served J a sec tag rule hserved], hb, ?_, ?_, ?_, ?_, ?_, ?_⟩
  · intro hmem
    obtain ⟨l₁, l₂, hnot, hL, hE⟩ := List.exists_erase_eq hmem
    exact ⟨l₁, l₂, hL, hnot, by rw [hb, hE]⟩
  · intro hnot
    rw [hb, List.erase_of_not_mem hnot]
  · intro k hk
    rw [hb, List.count_erase_self, hk]
    rfl
  · intro y hy
    rw [hb, List.count_erase_of_ne hy]
  · rw [hb]
    exact List.erase_sublist _ _
  · intro hq
    have h1 := AddPolicy_served J a sec tag rule (Conn.served_of_quiet hq)
    have hq1 : (AddPolicy J a sec tag rule).2.conn.Quiet := by
      rw [h1]; exact Conn.quiet_tail hq _
    have h2 := AddPolicy_served J _ sec tag rule (Conn.served_of_quiet hq1)
    have hq2 : (AddPolicy J (AddPolicy J a sec tag rule).2 sec tag rule).2.conn.Quiet := by
      rw [h2]; exact Conn.quiet_tail hq1 _
    rw [RemovePolicy_served J _ sec tag rule (Conn.served_of_quiet hq2)]
    have hb2 : (AddPolicy J (AddPolicy J a sec tag rule).2 sec tag rule).2.backing =
        a.backing ++ [J.record tag rule] ++ [J.record tag rule] := by
      rw [h2, h1]
      simp [Adapter.backing]
    rw [hb2]
    simp [Adapter.backing, List.count_erase_self]

theorem remove_policy_removes_first_match_witness :
    (RemovePolicy jsonLite
        (sampleAdapter
          [jsonLite.record "p" ["bob", "data2", "write"],
           jsonLite.record "p" ["alice", "data1", "read"],
           jsonLite.record "p" ["alice", "data1", "read"]] [])
        "p" "p" ["alice", "data1", "read"]).1 = none ∧
    (RemovePolicy jsonLite
        (sampleAdapter
          [jsonLite.record "p" ["bob", "data2", "write"],
           jsonLite.record "p" ["alice", "data1", "read"],
           jsonLite.record "p" ["alice", "data1", "read"]] [])
        "p" "p" ["alice", "data1", "read"]).2.backing =
      [jsonLite.record "p" ["bob", "data2", "write"],
       jsonLite.record "p" ["alice", "data1", "read"]] :=
  have h := remove_policy_removes_first_match jsonLite
    (sampleAdapter
      [jsonLite.record "p" ["bob", "data2", "write"],
       jsonLite.record "p" ["alice", "data1", "read"],
       jsonLite.record "p" ["alice", "data1", "read"]] [])
    "p" "p" ["alice", "data1", "read"] rfl
  ⟨h.1, h.2.1.trans (by decide)⟩

/-- C7: for every adapter state and every choice of section, tag, fieldIndex
and fieldValues, `RemoveFilteredPolicy` returns the same non-nil error, "not
implemented", and leaves the adapter, its connection and the stored lists as
they were: no command is issued. -/
theorem remove_filtered_policy_unsupported (a : Adapter) (sec tag : String) (fieldIndex : Int)
    (fieldValues : List String) :
    (RemoveFilteredPolicy a sec tag fieldIndex fieldValues).1 = some (Err.other "not implemented") ∧
    (RemoveFilteredPolicy a sec tag fieldIndex fieldValues).2 = a ∧
    (RemoveFilteredPolicy a sec tag fieldIndex fieldValues).2.backing = a.backing ∧
    (RemoveFilteredPolicy a sec tag fieldIndex fieldValues).2.conn.faults = a.conn.faults :=
  ⟨rfl, rfl, rfl, rfl⟩

/-- C8: when the backing key does not exist, so that the list is empty, and
the backend either answers the length query with the not-found condition
`redis.Nil` or executes the commands (reporting length 0), `LoadPolicy`
returns no error and hands back the model unchanged: no rule is injected. -/
theorem load_policy_missing_key (J : Json) (a : Adapter) (model : Model)
    (hempty : a.backing = [])
    (hreply : a.conn.next.1 = some Err.redisNil ∨ a.conn.Quiet) :
    (LoadPolicy J a model).1 = some (none, model) := by
  rcases hreply with hnil | hq
  · unfold LoadPolicy Conn.LLen
    rw [Conn.next_of_failed hnil]
  · rw [LoadPolicy_quiet J a model hq, hempty]
    rfl

theorem load_policy_missing_key_witness :
    (LoadPolicy jsonLite (sampleAdapter [] []) (sampleModel [] [])).1 =
        some (none, sampleModel [] []) ∧
    (LoadPolicy jsonLite (sampleAdapter [] [some Err.redisNil]) (sampleModel [] [])).1 =
        some (none, sampleModel [] []) :=
  ⟨load_policy_missing_key jsonLite (sampleAdapter [] []) (sampleModel [] []) rfl
      (Or.inr (by intro f hf; cases hf)),
    load_policy_missing_key jsonLite (sampleAdapter [] [some Err.redisNil]) (sampleModel [] [])
      rfl (Or.inl rfl)⟩

/-- C9: `RemovePolicies(section, tag, rules)` has the effect and the result
of calling `RemovePolicy` on each rule in order, stopping at the first
failure. If the removal of a rule fails after the rules before it were
removed, the caller receives that error, the backing list is the one the
earlier removals left (each deleted the first match of its record) and the
rules after it play no part; if no removal fails, no error is returned and
every rule has been removed in turn. -/
theorem remove_policies_sequential (J : Json) (a : Adapter) (sec tag : String)
    (rules : List (List String)) :
    RemovePolicies J a sec tag rules = removeEach J a sec tag rules ∧
    (∀ (done : List (List String)) (rule : List String) (rest : List (List String))
        (a₁ a₂ : Adapter) (e : Err),
      rules = done ++ rule :: rest →
      removeEach J a sec tag done = (none, a₁) →
      RemovePolicy J a₁ sec tag rule = (some e, a₂) →
      RemovePolicies J a sec tag rules = (some e, a₂) ∧
      a₂.backing = a₁.backing ∧
      a₁.backing = done.foldl (fun l r => l.erase (J.record tag r)) a.backing) ∧
    ((RemovePolicies J a sec tag rules).1 = none →
      (RemovePolicies J a sec tag rules).2.backing =
        rules.foldl (fun l r => l.erase (J.record tag r)) a.backing) ∧
    (a.conn.Quiet → (RemovePolicies J a sec tag rules).1 = none) := by
  refine ⟨RemovePolicies_eq_removeEach J a sec tag rules, ?_, ?_, ?_⟩
  · intro done rule rest a₁ a₂ e hrules hdone hfail
    refine ⟨?_, ?_, ?_⟩
    · rw [RemovePolicies_eq_removeEach, hrules, removeEach_append, hdone]
      simp only [removeEach, hfail]
    · have := RemovePolicy_failed J a₁ sec tag rule e (by rw [hfail])
      rw [hfail] at this
      exact this
    · have := removeEach_backing J a sec tag done (by rw [hdone])
      rw [hdone] at this
      exact this
  · intro hok
    rw [RemovePolicies_eq_removeEach] at hok ⊢
    exact removeEach_backing J a sec tag rules hok
  · intro hq
    rw [RemovePolicies_eq_removeEach]
    exact removeEach_quiet J a sec tag rules hq

theorem remove_policies_sequential_witness :
    (RemovePolicies jsonLite
        (sampleAdapter
          [jsonLite.record "p" ["alice", "data1", "read"],
           jsonLite.record "p" ["bob", "data2", "write"],
           jsonLite.record "p" ["carol", "data3", "read"]]
          [none, some (Err.other "i/o timeout")])
        "p" "p"
        [["alice", "data1", "read"], ["bob", "data2", "write"],
         ["carol", "data3", "read"]]).1 = some (Err.other "i/o timeout") ∧
    (RemovePolicies jsonLite
        (sampleAdapter
          [jsonLite.record "p" ["alice", "data1", "read"],
           jsonLite.record "p" ["bob", "data2", "write"],
           jsonLite.record "p" ["carol", "data3", "read"]]
          [none, some (Err.other "i/o timeout")])
        "p" "p"
        [["alice", "data1", "read"], ["bob", "data2", "write"],
         ["carol", "data3", "read"]]).2.backing =
      [jsonLite.record "p" ["bob", "data2", "write"],
       jsonLite.record "p" ["carol", "data3", "read"]] :=
  have h := (remove_policies_sequential jsonLite
      (sampleAdapter
        [jsonLite.record "p" ["alice", "data1", "read"],
         jsonLite.record "p" ["bob", "data2", "write"],
         jsonLite.record "p" ["carol", "data3", "read"]]
        [none, some (Err.other "i/o timeout")])
      "p" "p"
      [["alice", "data1", "read"], ["bob", "data2", "write"], ["carol", "data3", "read"]]).2.1
    [["alice", "data1", "read"]] ["bob", "data2", "write"] [["carol", "data3", "read"]]
    (removeEach jsonLite
      (sampleAdapter
        [jsonLite.record "p" ["alice", "data1", "read"],
         jsonLite.record "p" ["bob", "data2", "write"],
         jsonLite.record "p" ["carol", "data3", "read"]]
        [none, some (Err.other "i/o timeout")])
      "p" "p" [["alice", "data1", "read"]]).2
    (RemovePolicy jsonLite
      (removeEach jsonLite
        (sampleAdapter
          [jsonLite.record "p" ["alice", "data1", "read"],
           jsonLite.record "p" ["bob", "data2", "write"],
           jsonLite.record "p" ["carol", "data3", "read"]]
          [none, some (Err.other "i/o timeout")])
        "p" "p" [["alice", "data1", "read"]]).2
      "p" "p" ["bob", "data2", "write"]).2
    (Err.other "i/o timeout") rfl rfl rfl
  ⟨by rw [h.1], by rw [h.1, h.2.1, h.2.2]; decide⟩

/-- C3 (defect in the code): `SavePolicy` is to replace the content of the
backing list and calls `dropTable` and `createTable` first, but both bodies
are empty, so the records of the model are appended to whatever the list
held. Here the list holds the record of a rule that is absent from the model
saved; `SavePolicy` succeeds and the list then holds that old record followed
by the record of the one rule of the model. -/
theorem save_policy_keeps_prior_records :
    (SavePolicy jsonLite (sampleAdapter [jsonLite.record "p" ["bob", "data2", "write"]] [])
      (sampleModel [["alice", "data1", "read"]] [])).1 = none ∧
    (SavePolicy jsonLite (sampleAdapter [jsonLite.record "p" ["bob", "data2", "write"]] [])
      (sampleModel [["alice", "data1", "read"]] [])).2.backing =
      [jsonLite.record "p" ["bob", "data2", "write"],
       jsonLite.record "p" ["alice", "data1", "read"]] := by
  have hq : (sampleAdapter [jsonLite.record "p" ["bob", "data2", "write"]] []).conn.Quiet := by
    intro f hf; cases hf
  obtain ⟨hb, -, hok⟩ := SavePolicy_quiet jsonLite _ (sampleModel [["alice", "data1", "read"]] []) hq
  have hrec : jsonLite.sectionRecords ((sampleModel [["alice", "data1", "read"]] []).sec "p") ++
      jsonLite.sectionRecords ((sampleModel [["alice", "data1", "read"]] []).sec "g") =
      [jsonLite.record "p" ["alice", "data1", "read"]] := by
    simp [Json.sectionRecords, sampleModel, Model.sec, List.lookup]
  rw [hrec] at hb hok
  exact ⟨hok (by simp), by rw [hb]; simp [sampleAdapter, Adapter.backing]⟩

/-- C5: after a successful `AddPolicy(section, tag, rule)` the backing list
is the former list followed by the single record of `(tag, rule)`, the
section argument having no influence; consequently, with a lawful
serializer, a connection without failures and an empty backing list,
`AddPolicy("p", "p", ["alice","data1","read"])` succeeds and the `LoadPolicy`
that follows, into a model without rules that declares the assertion "p",
yields exactly one rule, `["alice","data1","read"]`, under section p, tag p. -/
theorem add_policy_appends_one_record (J : Json) (a : Adapter) (sec tag : String)
    (rule : List String) (hok : (AddPolicy J a sec tag rule).1 = none) :
    (AddPolicy J a sec tag rule).2.backing = a.backing ++ [J.record tag rule] ∧
    (∀ sec', AddPolicy J a sec' tag rule = AddPolicy J a sec tag rule) ∧
    (J.Lawful → ∀ (a₀ : Adapter) (model : Model),
      a₀.conn.Quiet → a₀.backing = [] →
      (∀ s t, model.policy s t = []) → model.has "p" "p" = true →
      (AddPolicy J a₀ "p" "p" ["alice", "data1", "read"]).1 = none ∧
      ∃ model',
        (LoadPolicy J (AddPolicy J a₀ "p" "p" ["alice", "data1", "read"]).2 model).1 =
          some (none, model') ∧
        model'.policy "p" "p" = [["alice", "data1", "read"]] ∧
        ∀ s t, ¬ (s = "p" ∧ t = "p") → model'.policy s t = []) := by
  refine ⟨?_, fun _ => rfl, ?_⟩
  · unfold AddPolicy at hok ⊢
    exact RPush_ok hok
  · intro hJ a₀ model hq hempty hnone hhas
    have hadd := AddPolicy_served J a₀ "p" "p" ["alice", "data1", "read"] (Conn.served_of_quiet hq)
    have hq1 : (AddPolicy J a₀ "p" "p" ["alice", "data1", "read"]).2.conn.Quiet := by
      rw [hadd]; exact Conn.quiet_tail hq _
    have hb1 : (AddPolicy J a₀ "p" "p" ["alice", "data1", "read"]).2.backing =
        [savePolicyLine "p" ["alice", "data1", "read"]].map J.Marshal := by
      rw [hadd]
      have hstore : a₀.conn.store a₀.key = [] := hempty
      simp [Adapter.backing, hstore, Json.record]
    refine ⟨by rw [hadd], ?_⟩
    rw [LoadPolicy_quiet J _ model hq1, hb1]
    simp only [loadValues_marshal J hJ]
    have htext : [savePolicyLine "p" ["alice", "data1", "read"]].map loadPolicyLineText =
        [["p", "alice", "data1", "read"]] := by
      simp [decode_encode]
    rw [htext]
    obtain ⟨m', hload, -, hpol⟩ := loadArrays_spec [["p", "alice", "data1", "read"]] model
      (by
        intro text htext
        rw [List.mem_singleton] at htext
        exact ⟨"p", ["alice", "data1", "read"], "p", htext, by decide, hhas⟩)
    refine ⟨m', by rw [hload]; rfl, ?_, ?_⟩
    · rw [hpol, hnone]
      have : routed "p" "p" ["p", "alice", "data1", "read"] = true := by decide
      simp [List.filter_cons, this]
    · intro s t hst
      rw [hpol, hnone]
      have : routed s t ["p", "alice", "data1", "read"] = false := by
        simp only [routed, List.head?_cons, Option.some.injEq, decide_eq_false_iff_not]
        rintro ⟨h1, h2⟩
        subst h1
        have h3 : sectionOf "p" = some "p" := by decide
        rw [h3] at h2
        exact hst ⟨(Option.some.inj h2).symm, rfl⟩
      simp [List.filter_cons, this]

theorem add_policy_appends_one_record_witness :
    (AddPolicy jsonLite (sampleAdapter [] []) "p" "p" ["alice", "data1", "read"]).2.backing =
      [] ++ [jsonLite.record "p" ["alice", "data1", "read"]] ∧
    ∃ model',
      (LoadPolicy jsonLite
        (AddPolicy jsonLite (sampleAdapter [] []) "p" "p" ["alice", "data1", "read"]).2
        (sampleModel [] [])).1 = some (none, model') ∧
      model'.policy "p" "p" = [["alice", "data1", "read"]] ∧
      ∀ s t, ¬ (s = "p" ∧ t = "p") → model'.policy s t = [] :=
  have h := add_policy_appends_one_record jsonLite (sampleAdapter [] []) "p" "p"
    ["alice", "data1", "read"] rfl
  ⟨h.1, (h.2.2 jsonLite_lawful (sampleAdapter [] []) (sampleModel [] [])
    (by intro f hf; cases hf) rfl (fun s t => clear_policy (sampleModel [] []) s t) rfl).2⟩

/-- C4 (amended): for a serializer whose Unmarshal inverts Marshal, a
connection on which no command fails, an initially empty backing list and a
model M whose tags in sections "p" and "g" are routed to their section and
whose rules there have at most six fields, none empty: `SavePolicy(M)`
returns no error when M holds a rule in "p" or "g", and returns the error of
`RPUSH` called without values, leaving the list empty, when M holds none; in
both cases the `LoadPolicy` that follows, into the model emptied of its
rules, returns no error and a model with the same assertions in which every
tag of "p" and "g" holds the same rules in the same order as in M, and no
other section holds a rule. -/
theorem save_load_round_trip (J : Json) (a : Adapter) (M : Model)
    (hJ : J.Lawful) (hquiet : a.conn.Quiet) (hempty : a.backing = []) (hM : M.Storable) :
    ((∃ tag, M.policy "p" tag ≠ []) ∨ (∃ tag, M.policy "g" tag ≠ []) →
      (SavePolicy J a M).1 = none) ∧
    ((∀ tag, M.policy "p" tag = []) ∧ (∀ tag, M.policy "g" tag = []) →
      (SavePolicy J a M).1 =
        some (Err.other "ERR wrong number of arguments for 'rpush' command") ∧
      (SavePolicy J a M).2.backing = []) ∧
    ∃ M',
      (LoadPolicy J (SavePolicy J a M).2 M.clear).1 = some (none, M') ∧
      (∀ sec tag, M'.has sec tag = M.has sec tag) ∧
      (∀ tag, M'.policy "p" tag = M.policy "p" tag) ∧
      (∀ tag, M'.policy "g" tag = M.policy "g" tag) ∧
      (∀ sec tag, sec ≠ "p" → sec ≠ "g" → M'.policy sec tag = []) := by
  obtain ⟨hb, hq1, hok⟩ := SavePolicy_quiet J a M hquiet
  obtain ⟨hP, hG⟩ := hM
  have hrecs : J.sectionRecords (M.sec "p") ++ J.sectionRecords (M.sec "g") =
      (((M.sec "p").flatMap (fun entry => entry.2.Policy.map (savePolicyLine entry.1))) ++
       ((M.sec "g").flatMap (fun entry => entry.2.Policy.map (savePolicyLine entry.1)))).map
        J.Marshal := by
    rw [List.map_append, ← sectionRecords_eq_map, ← sectionRecords_eq_map]
  have hne : ∀ sec tag, M.policy sec tag ≠ [] → J.sectionRecords (M.sec sec) ≠ [] := by
    intro sec tag hpol hnil
    unfold Model.policy at hpol
    cases hl : (M.sec sec).lookup tag with
    | none => rw [hl] at hpol; exact hpol rfl
    | some ast =>
      rw [hl] at hpol
      have hmem : (tag, ast) ∈ M.sec sec := mem_of_lookup tag ast _ hl
      unfold Json.sectionRecords at hnil
      rw [List.flatMap_eq_nil_iff] at hnil
      have := hnil (tag, ast) hmem
      simp only [List.map_eq_nil_iff] at this
      exact hpol this
  refine ⟨?_, ?_, ?_⟩
  · rintro (⟨tag, h⟩ | ⟨tag, h⟩)
    · exact hok (by intro hnil; exact hne "p" tag h (List.append_eq_nil.mp hnil).1)
    · exact hok (by intro hnil; exact hne "g" tag h (List.append_eq_nil.mp hnil).2)
  · rintro ⟨hp, hg⟩
    have hnil : J.sectionRecords (M.sec "p") ++ J.sectionRecords (M.sec "g") = [] := by
      rw [sectionRecords_nil_of_policy_nil J M "p" hP.1 hp,
        sectionRecords_nil_of_policy_nil J M "g" hG.1 hg]
      rfl
    exact ⟨SavePolicy_quiet_empty J a M hquiet hnil, by rw [hb, hnil, hempty]; rfl⟩
  · rw [LoadPolicy_quiet J _ M.clear hq1, hb, hempty, List.nil_append, hrecs]
    rw [loadValues_marshal J hJ, List.map_append,
      map_decode_sectionLines "p" _ hP, map_decode_sectionLines "g" _ hG]
    obtain ⟨M', hload, hhas, hpol⟩ :=
      loadArrays_spec (sectionTexts (M.sec "p") ++ sectionTexts (M.sec "g")) M.clear
        (by
          intro text htext
          have hmemsec : ∀ sec : String, AssertionMap.Storable sec (M.sec sec) →
              text ∈ sectionTexts (M.sec sec) →
              ∃ key vals s, text = key :: vals ∧ sectionOf key = some s ∧
                M.clear.has s key = true := by
            intro sec hS hmem
            unfold sectionTexts at hmem
            obtain ⟨entry, hentry, hin⟩ := List.mem_flatMap.mp hmem
            obtain ⟨rule, -, hrule⟩ := List.mem_map.mp hin
            refine ⟨entry.1, rule, sec, hrule.symm, (hS.2 entry hentry).1, ?_⟩
            rw [clear_has]
            exact lookup_isSome_of_mem entry _ hentry
          rcases List.mem_append.mp htext with h | h
          · exact hmemsec "p" hP h
          · exact hmemsec "g" hG h)
    refine ⟨M', by rw [hload]; rfl, ?_, ?_, ?_, ?_⟩
    · intro sec tag
      rw [hhas, clear_has]
    · intro tag
      rw [hpol, clear_policy, List.filter_append, List.map_append,
        filter_sectionTexts "p" _ hP.1 (fun e he => (hP.2 e he).1),
        filter_sectionTexts "g" _ hG.1 (fun e he => (hG.2 e he).1)]
      have : ("p" : String) ≠ "g" := by decide
      simp [Model.policy, this]
    · intro tag
      rw [hpol, clear_policy, List.filter_append, List.map_append,
        filter_sectionTexts "p" _ hP.1 (fun e he => (hP.2 e he).1),
        filter_sectionTexts "g" _ hG.1 (fun e he => (hG.2 e he).1)]
      have : ("g" : String) ≠ "p" := by decide
      simp [Model.policy, this]
    · intro sec tag h1 h2
      rw [hpol, clear_policy, List.filter_append, List.map_append,
        filter_sectionTexts "p" _ hP.1 (fun e he => (hP.2 e he).1),
        filter_sectionTexts "g" _ hG.1 (fun e he => (hG.2 e he).1)]
      simp [h1, h2]

theorem save_load_round_trip_witness :
    ((SavePolicy jsonLite (sampleAdapter [] [])
      (sampleModel [["alice", "data1", "read"], ["bob", "data2", "write"]]
        [["alice", "admin"]])).1 = none ∧
    ∃ M',
      (LoadPolicy jsonLite
        (SavePolicy jsonLite (sampleAdapter [] [])
          (sampleModel [["alice", "data1", "read"], ["bob", "data2", "write"]]
            [["alice", "admin"]])).2
        (sampleModel [] [])).1 = some (none, M') ∧
      M'.policy "p" "p" = [["alice", "data1", "read"], ["bob", "data2", "write"]] ∧
      M'.policy "g" "g" = [["alice", "admin"]]) ∧
    ((SavePolicy jsonLite (sampleAdapter [] []) (sampleModel [] [])).1 =
        some (Err.other "ERR wrong number of arguments for 'rpush' command") ∧
    ∃ M',
      (LoadPolicy jsonLite (SavePolicy jsonLite (sampleAdapter [] []) (sampleModel [] [])).2
        (sampleModel [] [])).1 = some (none, M') ∧
      M'.policy "p" "p" = [] ∧ M'.policy "g" "g" = []) :=
  have h := save_load_round_trip jsonLite (sampleAdapter [] [])
    (sampleModel [["alice", "data1", "read"], ["bob", "data2", "write"]] [["alice", "admin"]])
    jsonLite_lawful (by intro f hf; cases hf) rfl
    (by unfold Model.Storable AssertionMap.Storable; decide)
  have h0 := save_load_round_trip jsonLite (sampleAdapter [] []) (sampleModel [] [])
    jsonLite_lawful (by intro f hf; cases hf) rfl
    (by unfold Model.Storable AssertionMap.Storable; decide)
  ⟨⟨h.1 (Or.inl ⟨"p", by decide⟩),
      let ⟨M', h1, _, hp, hg, _⟩ := h.2.2
      ⟨M', h1, (hp "p").trans rfl, (hg "g").trans rfl⟩⟩,
    ⟨(h0.2.1 ⟨fun tag => clear_policy (sampleModel [] []) "p" tag,
        fun tag => clear_policy (sampleModel [] []) "g" tag⟩).1,
      let ⟨M', h1, _, hp, hg, _⟩ := h0.2.2
      ⟨M', h1, (hp "p").trans rfl, (hg "g").trans rfl⟩⟩⟩

/-- C4 (counterexample): the rule `["alice", "", "read"]` saved to an empty
backing list is loaded back as `["alice", "read"]`, so the model after
`SavePolicy` and `LoadPolicy` is not the model saved. -/
theorem empty_field_lost_on_reload :
    (LoadPolicy jsonLite
      (SavePolicy jsonLite (sampleAdapter [] []) (sampleModel [["alice", "", "read"]] [])).2
      (sampleModel [["alice", "", "read"]] []).clear).1 =
        some (none, sampleModel [["alice", "read"]] []) ∧
    (sampleModel [["alice", "read"]] []).policy "p" "p" ≠
      (sampleModel [["alice", "", "read"]] []).policy "p" "p" := by
  decide

end RedisAdapter
